import Mathlib

/-!
Verification of the dependency-extraction core of the `version-crawler`
repository: the version normalizer/collector (`src/version-collector.ts`),
the manifest extractor (`src/manifest-parser.ts`) and the four lockfile
stream extractors (`src/lockfile-parser.ts`).

Strings are modelled as `List Char` (one entry per code point).  The
JavaScript string/regex operations used by the source are embedded as
executable functions on `List Char`; every embedded definition mirrors the
TypeScript it is named after.  Comparisons on characters use the code
point, which agrees with JavaScript's UTF-16 comparisons on all inputs the
source manipulates (ASCII).
-/

set_option maxHeartbeats 1000000

namespace VersionCrawler

/-- The double-quote character. -/
def dq : Char := Char.ofNat 34

/-- The single-quote character. -/
def sq : Char := Char.ofNat 39

/-- Characters matched by JavaScript's `\s` and trimmed by
`String.prototype.trim` (ASCII whitespace plus the Unicode space
separators, NEL, BOM). -/
def jsWhitespace (c : Char) : Bool :=
  c = ' ' || c = '\t' || c = '\n' || c = '\r' || c = '\x0b' || c = '\x0c' ||
  c = Char.ofNat 0x85 || c = Char.ofNat 0xa0 || c = Char.ofNat 0x1680 ||
  (0x2000 ≤ c.val && c.val ≤ 0x200a) ||
  c = Char.ofNat 0x2028 || c = Char.ofNat 0x2029 || c = Char.ofNat 0x202f ||
  c = Char.ofNat 0x205f || c = Char.ofNat 0x3000 || c = Char.ofNat 0xfeff

/-- JavaScript `s.trim()`: drop `jsWhitespace` from both ends. -/
def jsTrim (s : List Char) : List Char :=
  ((s.dropWhile jsWhitespace).reverse.dropWhile jsWhitespace).reverse

/-- JavaScript `s.startsWith(p)`. -/
def startsWith (p s : List Char) : Bool := p.isPrefixOf s

/-- JavaScript `s.includes(p)`: `p` occurs as a contiguous substring. -/
def includesSub (s p : List Char) : Bool :=
  s.tails.any fun t => p.isPrefixOf t

/-- ASCII lower-casing, as performed by a case-insensitive (`/i`) regex on
an ASCII pattern. -/
def asciiLower (c : Char) : Char :=
  if 'A' ≤ c ∧ c ≤ 'Z' then Char.ofNat (c.val.toNat + 32) else c

/-- Case-insensitive `startsWith`, embedding an `/^pat/i` regex test. -/
def startsWithCI (p s : List Char) : Bool :=
  startsWith (p.map asciiLower) (s.map asciiLower)

/-- ASCII digit. -/
def isDigitChar (c : Char) : Bool := '0' ≤ c && c ≤ '9'

/-- Character class `[a-zA-Z0-9.-]` used by the prerelease/build suffixes of
`SEMVER_REGEX`. -/
def isSemverSuffixChar (c : Char) : Bool :=
  isDigitChar c || ('a' ≤ c && c ≤ 'z') || ('A' ≤ c && c ≤ 'Z') || c = '.' || c = '-'

/-!  ## Version collector (`src/version-collector.ts`)  -/

/-- `EXCLUDED_PATTERNS.some((pattern) => pattern.test(version))`: the eight
exclusion regexes of `version-collector.ts`, all anchored at the start
(`/^workspace:/i`, `/^link:/i`, `/^file:/i`, `/^git\+/i`, `/^https?:\/\//i`,
`/^github:/i`, `/^\*/`, `/^latest$/i`). -/
def matchesExcludedPattern (s : List Char) : Bool :=
  startsWithCI "workspace:".data s ||
  startsWithCI "link:".data s ||
  startsWithCI "file:".data s ||
  startsWithCI "git+".data s ||
  startsWithCI "http://".data s ||
  startsWithCI "https://".data s ||
  startsWithCI "github:".data s ||
  (match s with | c :: _ => c = '*' | [] => false) ||
  s.map asciiLower = "latest".data

/-- The optional range operator `(\^|~|>=?|<=?|=)?` at the head of
`SEMVER_REGEX`; returns the remainder of the string.  The two-character
operators are preferred by the regex engine (greedy `=?`) and no input can
match with the shorter alternative but fail with the longer one, so
longest-first is the exact semantics. -/
def dropRangeOp (s : List Char) : List Char :=
  if startsWith ">=".data s then s.drop 2
  else if startsWith "<=".data s then s.drop 2
  else match s with
    | c :: r => if c = '^' ∨ c = '~' ∨ c = '>' ∨ c = '<' ∨ c = '=' then r else s
    | [] => s

/-- Consume `(\.\d+)?`: a dot followed by at least one digit, if present. -/
def dropDotNum (s : List Char) : List Char :=
  match s with
  | '.' :: r => if (r.takeWhile isDigitChar) ≠ [] then r.dropWhile isDigitChar else s
  | _ => s

/-- Consume `(-[a-zA-Z0-9.-]+)?` (with `lead = '-'`) or
`(\+[a-zA-Z0-9.-]+)?` (with `lead = '+'`). -/
def dropSuffixGroup (lead : Char) (s : List Char) : List Char :=
  match s with
  | c :: r =>
    if c = lead ∧ (r.takeWhile isSemverSuffixChar) ≠ [] then
      r.dropWhile isSemverSuffixChar
    else s
  | [] => s

/-- `SEMVER_REGEX.test(version)` for
`/^(\^|~|>=?|<=?|=)?\s*\d+(\.\d+)?(\.\d+)?(-[a-zA-Z0-9.-]+)?(\+[a-zA-Z0-9.-]+)?$/`.
Each quantifier is greedy and no character can begin both a group and its
successor, so the regex is equivalent to this deterministic left-to-right
scan. -/
def semverRegexTest (s : List Char) : Bool :=
  let s1 := (dropRangeOp s).dropWhile jsWhitespace
  if (s1.takeWhile isDigitChar) = [] then false
  else
    let s2 := s1.dropWhile isDigitChar
    let s3 := dropDotNum s2
    let s4 := dropDotNum s3
    let s5 := dropSuffixGroup '-' s4
    let s6 := dropSuffixGroup '+' s5
    s6 = []

/-- `VersionCollector.isValidSemver`: rejected if any exclusion pattern
matches, otherwise tested against `SEMVER_REGEX`. -/
def isValidSemver (version : List Char) : Bool :=
  if matchesExcludedPattern version then false
  else semverRegexTest version

/-- `version.replace(/^["']|["']$/g, '')`: the global regex removes a
quote character found at position 0 and a quote character found at the
last position of the remainder of the scan (the two alternatives match
independently; no pairing is required). -/
def stripQuotesJS (s : List Char) : List Char :=
  let s1 := match s with
    | c :: r => if c = dq ∨ c = sq then r else s
    | [] => []
  if s1 ≠ [] ∧ (s1.getLast? = some dq ∨ s1.getLast? = some sq) then
    s1.dropLast
  else s1

/-- `VersionCollector.normalize`: strip quotes then `trim()`. -/
def normalize (version : List Char) : List Char :=
  jsTrim (stripQuotesJS version)

/-- The collector state `versions = new Map<string, Set<string>>()`,
modelled as an insertion-ordered association list of insertion-ordered
duplicate-free member lists (JavaScript `Map` and `Set` iterate in
insertion order; `Map.set` appends new keys, `Set.add` appends new
elements and is a no-op on present ones). -/
abbrev Collector : Type := List (List Char × List (List Char))

/-- A fresh `new VersionCollector()`. -/
def Collector.empty : Collector := []

/-- `this.versions.get(key)` (JavaScript `Map` keys are unique; lookup by
first — equivalently only — binding). -/
def Collector.get (m : Collector) (key : List Char) : Option (List (List Char)) :=
  match m with
  | [] => none
  | (k, s) :: rest => if k = key then some s else Collector.get rest key

/-- The effect of `this.versions.get(key)!.add(normalized)` preceded by
`if (!this.versions.has(key)) this.versions.set(key, new Set())`. -/
def Collector.addToKey (m : Collector) (key v : List Char) : Collector :=
  match m with
  | [] => [(key, [v])]
  | (k, s) :: rest =>
    if k = key then (k, if v ∈ s then s else s ++ [v]) :: rest
    else (k, s) :: Collector.addToKey rest key v

/-- `VersionCollector.add(key, version)`. -/
def Collector.add (m : Collector) (key version : List Char) : Collector :=
  let normalized := normalize version
  if ¬ isValidSemver normalized then m
  else Collector.addToKey m key normalized

/-- Code point comparison of strings, embedding the default ordering used
by JavaScript `Array.prototype.sort` (identical to UTF-16 order on the
ASCII version strings the collector stores). -/
def ltChars : List Char → List Char → Bool
  | [], [] => false
  | [], _ :: _ => true
  | _ :: _, [] => false
  | a :: as, b :: bs =>
    if a.val < b.val then true
    else if b.val < a.val then false
    else ltChars as bs

/-- Insert into an ascending list. -/
def insortStr (v : List Char) : List (List Char) → List (List Char)
  | [] => [v]
  | x :: xs => if ltChars x v then x :: insortStr v xs else v :: x :: xs

/-- `Array.from(set).sort()`. -/
def sortStrs (l : List (List Char)) : List (List Char) :=
  l.foldr insortStr []

/-- `VersionCollector.getVersions(key)`. -/
def Collector.getVersions (m : Collector) (key : List Char) : List (List Char) :=
  match Collector.get m key with
  | none => []
  | some versions => sortStrs versions

/-- `VersionCollector.getAllVersions()`. -/
def Collector.getAllVersions (m : Collector) : List (List Char) :=
  sortStrs ((m.foldl (fun acc kv => acc ++ kv.2.filter (¬ acc.contains ·)) []))

/-- `VersionCollector.clear()`. -/
def Collector.clear (_ : Collector) : Collector := []

/-- `VersionCollector.size`. -/
def Collector.size (m : Collector) : Nat :=
  (Collector.getAllVersions m).length

/-!  ## JSON values and `JSON.parse` (the platform parser used by
`ManifestParser.parseManifest`)  -/

/-- The opening brace character. -/
def lbrace : Char := Char.ofNat 123

/-- The closing brace character. -/
def rbrace : Char := Char.ofNat 125

/-- A parsed JSON value.  Numbers keep their lexeme: the manifest code
never computes with a numeric value, it only tests truthiness. -/
inductive Json where
  | null
  | bool (b : Bool)
  | num (lexeme : List Char)
  | str (s : List Char)
  | arr (elems : List Json)
  | obj (fields : List (List Char × Json))

/-- JSON insignificant whitespace. -/
def jsonWs (c : Char) : Bool := c = ' ' || c = '\t' || c = '\n' || c = '\r'

/-- Skip JSON whitespace. -/
def skipWs (s : List Char) : List Char := s.dropWhile jsonWs

/-- Hexadecimal digit value. -/
def hexVal (c : Char) : Option Nat :=
  if '0' ≤ c ∧ c ≤ '9' then some (c.toNat - '0'.toNat)
  else if 'a' ≤ c ∧ c ≤ 'f' then some (c.toNat - 'a'.toNat + 10)
  else if 'A' ≤ c ∧ c ≤ 'F' then some (c.toNat - 'A'.toNat + 10)
  else none

/-- Decode a `\uXXXX` escape.  JavaScript strings may hold lone surrogates;
those are not Lean scalar values and are approximated by U+FFFD (no code
under verification inspects such characters). -/
def uEscape (a b c d : Char) : Option Char :=
  match hexVal a, hexVal b, hexVal c, hexVal d with
  | some x, some y, some z, some w =>
    let code := ((x * 16 + y) * 16 + z) * 16 + w
    some (if h : code.isValidChar then ⟨UInt32.ofNatCore code (by
      rcases h with h | ⟨_, h⟩
      · exact lt_trans h (by norm_num)
      · exact lt_trans h (by norm_num)), h⟩ else Char.ofNat 0xfffd)
  | _, _, _, _ => none

/-- Parse the body of a JSON string (the opening quote already consumed);
returns the contents and the remainder after the closing quote. -/
def parseJString : Nat → List Char → Option (List Char × List Char)
  | 0, _ => none
  | _, [] => none
  | fuel + 1, c :: r =>
    if c = dq then some ([], r)
    else if c = '\\' then
      match r with
      | [] => none
      | e :: r2 =>
        let push (ch : Char) (rest : List Char) : Option (List Char × List Char) :=
          (parseJString fuel rest).map fun p => (ch :: p.1, p.2)
        if e = dq then push dq r2
        else if e = '\\' then push '\\' r2
        else if e = '/' then push '/' r2
        else if e = 'b' then push '\x08' r2
        else if e = 'f' then push '\x0c' r2
        else if e = 'n' then push '\n' r2
        else if e = 'r' then push '\r' r2
        else if e = 't' then push '\t' r2
        else if e = 'u' then
          match r2 with
          | a :: b :: c2 :: d :: r3 =>
            match uEscape a b c2 d with
            | some ch => push ch r3
            | none => none
          | _ => none
        else none
    else if c.val < 32 then none
    else (parseJString fuel r).map fun p => (c :: p.1, p.2)

/-- Parse a JSON number starting at `s`; returns the lexeme and remainder. -/
def parseJNumber (s : List Char) : Option (List Char × List Char) := do
  let (sign, s1) := match s with
    | '-' :: r => (['-'], r)
    | _ => (([] : List Char), s)
  let (intPart, s2) ← match s1 with
    | '0' :: r => some (['0'], r)
    | c :: _ =>
      if isDigitChar c then some (s1.takeWhile isDigitChar, s1.dropWhile isDigitChar)
      else none
    | [] => none
  let (fracPart, s3) ← match s2 with
    | '.' :: r =>
      if (r.takeWhile isDigitChar) = [] then none
      else some ('.' :: r.takeWhile isDigitChar, r.dropWhile isDigitChar)
    | _ => some (([] : List Char), s2)
  let (expPart, s4) ← match s3 with
    | e :: r =>
      if e = 'e' ∨ e = 'E' then
        let (sgn, r1) := match r with
          | '+' :: r2 => (['+'], r2)
          | '-' :: r2 => (['-'], r2)
          | _ => (([] : List Char), r)
        if (r1.takeWhile isDigitChar) = [] then none
        else some (e :: sgn ++ r1.takeWhile isDigitChar, r1.dropWhile isDigitChar)
      else some (([] : List Char), s3)
    | [] => some (([] : List Char), s3)
  pure (sign ++ intPart ++ fracPart ++ expPart, s4)

mutual

/-- Parse one JSON value (leading whitespace allowed). -/
def parseJValue : Nat → List Char → Option (Json × List Char)
  | 0, _ => none
  | fuel + 1, s =>
    match skipWs s with
    | [] => none
    | c :: r =>
      if c = dq then (parseJString ((c :: r).length + 1) r).map fun p => (Json.str p.1, p.2)
      else if c = lbrace then
        match skipWs r with
        | c2 :: r2 =>
          if c2 = rbrace then some (Json.obj [], r2)
          else (parseJMembers fuel (c2 :: r2)).map fun p => (Json.obj p.1, p.2)
        | [] => none
      else if c = '[' then
        match skipWs r with
        | c2 :: r2 =>
          if c2 = ']' then some (Json.arr [], r2)
          else (parseJItems fuel (c2 :: r2)).map fun p => (Json.arr p.1, p.2)
        | [] => none
      else if startsWith "true".data (c :: r) then some (Json.bool true, (c :: r).drop 4)
      else if startsWith "false".data (c :: r) then some (Json.bool false, (c :: r).drop 5)
      else if startsWith "null".data (c :: r) then some (Json.null, (c :: r).drop 4)
      else if c = '-' ∨ isDigitChar c then
        (parseJNumber (c :: r)).map fun p => (Json.num p.1, p.2)
      else none

/-- Parse the members of a JSON object (at least one; positioned at the
first key, whitespace already skipped); returns them and the remainder
after the closing brace. -/
def parseJMembers : Nat → List Char → Option (List (List Char × Json) × List Char)
  | 0, _ => none
  | fuel + 1, s =>
    match s with
    | c :: r =>
      if c = dq then do
        let (key, r1) ← parseJString (r.length + 1) r
        match skipWs r1 with
        | ':' :: r2 => do
          let (v, r3) ← parseJValue fuel r2
          match skipWs r3 with
          | ',' :: r4 =>
            let (rest, r5) ← parseJMembers fuel (skipWs r4)
            pure ((key, v) :: rest, r5)
          | c2 :: r4 => if c2 = rbrace then pure ([(key, v)], r4) else none
          | [] => none
        | _ => none
      else none
    | [] => none

/-- Parse the items of a JSON array (at least one). -/
def parseJItems : Nat → List Char → Option (List Json × List Char)
  | 0, _ => none
  | fuel + 1, s => do
    let (v, r1) ← parseJValue fuel s
    match skipWs r1 with
    | ',' :: r2 =>
      let (rest, r3) ← parseJItems fuel (skipWs r2)
      pure (v :: rest, r3)
    | ']' :: r2 => pure ([v], r2)
    | _ => none

end

/-- `JSON.parse(content)`: `none` models a thrown `SyntaxError`. -/
def parseJson (content : List Char) : Option Json :=
  match parseJValue (content.length + 1) content with
  | some (v, rest) => if skipWs rest = [] then some v else none
  | none => none

/-!  ## Manifest parser (`src/manifest-parser.ts`)  -/

/-- The `DependencyType` union of `src/types.ts`. -/
inductive DependencyType where
  | dependencies
  | devDependencies
  | peerDependencies
  | optionalDependencies
  | resolved
deriving DecidableEq, Repr

/-- The string value of a `DependencyType`. -/
def DependencyType.jsName : DependencyType → List Char
  | .dependencies => "dependencies".data
  | .devDependencies => "devDependencies".data
  | .peerDependencies => "peerDependencies".data
  | .optionalDependencies => "optionalDependencies".data
  | .resolved => "resolved".data

/-- The `'manifest' | 'lockfile'` union of `DependencySource.type`. -/
inductive SourceKind where
  | manifest
  | lockfile
deriving DecidableEq, Repr

/-- `DependencySource` of `src/types.ts`.  The declared type of `version`
is `string`, but `parseManifest` copies whatever JSON value sits in the
dependency section without checking it, so the runtime-honest type is
`Json`. -/
structure DependencySource where
  path : List Char
  type : SourceKind
  dependencyType : DependencyType
  version : Json
  lineUrl : List Char

/-- JavaScript `content.split('\n')` (every segment, including the final
one, which is empty when the text ends in a newline). -/
def splitAllNL : List Char → List (List Char)
  | [] => [[]]
  | c :: r =>
    match splitAllNL r with
    | [] => [[]]
    | x :: xs => if c = '\n' then [] :: x :: xs else (c :: x) :: xs

/-- Decimal digits of a number, as appended into a template literal. -/
def natToChars (n : Nat) : List Char := (Nat.repr n).data

/-- The `${repoUrl}/blob/${branch}/${filePath}#L${lineNumber}` template. -/
def mkLineUrl (repoUrl branch filePath : List Char) (lineNumber : Nat) : List Char :=
  repoUrl ++ "/blob/".data ++ branch ++ "/".data ++ filePath ++ "#L".data ++ natToChars lineNumber

/-- The loop body of `ManifestParser.findLineNumber`; `i` is the 0-based
index of `line`, and `break` returns the fallback value 1. -/
def findLineNumberAux (packageName dependencyType : List Char) :
    List (List Char) → Nat → Bool → Bool → Nat
  | [], _, _, _ => 1
  | line :: rest, i, inSection, sectionStarted =>
    let trimmed := jsTrim line
    if startsWith (dq :: dependencyType ++ [dq]) trimmed ∨
       startsWith (sq :: dependencyType ++ [sq]) trimmed then
      findLineNumberAux packageName dependencyType rest (i + 1) true true
    else if inSection then
      if sectionStarted ∧ startsWith [dq] trimmed ∧ ¬ includesSub trimmed [':'] then 1
      else if trimmed = [rbrace] ∨ trimmed = [rbrace, ','] then
        findLineNumberAux packageName dependencyType rest (i + 1) false false
      else if (startsWith (dq :: packageName ++ [dq]) trimmed ∨
               startsWith (sq :: packageName ++ [sq]) trimmed) ∧
              includesSub trimmed [':'] then
        i + 1
      else findLineNumberAux packageName dependencyType rest (i + 1) inSection sectionStarted
    else findLineNumberAux packageName dependencyType rest (i + 1) inSection sectionStarted

/-- `ManifestParser.findLineNumber(content, packageName, dependencyType)`. -/
def findLineNumber (content packageName dependencyType : List Char) : Nat :=
  findLineNumberAux packageName dependencyType (splitAllNL content) 0 false false

/-- `parsed[name]` on a parsed JSON value: own-property lookup.  Duplicate
keys in the JSON text leave the last binding (as `JSON.parse` does).
Prototype-chain properties (`toString`, ...) and array index properties
are not modelled; no claim exercises them. -/
def Json.getProp (j : Json) (name : List Char) : Option Json :=
  match j with
  | .obj fields => (fields.reverse.find? fun f => f.1 = name).map fun f => f.2
  | _ => none

/-- True when every mantissa digit of a JSON number lexeme is `0`, i.e.
the numeric value is `±0` (the only falsy numbers). -/
def isZeroLexeme (lexeme : List Char) : Bool :=
  ((lexeme.takeWhile fun c => c ≠ 'e' ∧ c ≠ 'E').filter isDigitChar).all (· = '0')

/-- JavaScript falsiness of a parsed JSON value (`!deps`). -/
def Json.isFalsy : Json → Bool
  | .null => true
  | .bool b => !b
  | .num lexeme => isZeroLexeme lexeme
  | .str s => s.isEmpty
  | .arr _ => false
  | .obj _ => false

/-- One iteration of the `for (const depType of dependencyTypes)` loop of
`parseManifest`: the records contributed by one section.  `none` models a
`TypeError` escaping the method (`packageName in deps` with `deps` a
truthy primitive). -/
def sectionRecords (parsed : Json) (content packageName filePath repoUrl branch : List Char)
    (depType : DependencyType) : Option (List DependencySource) :=
  match Json.getProp parsed depType.jsName with
  | none => some []
  | some deps =>
    if Json.isFalsy deps then some []
    else
      match deps with
      | .obj fields =>
        match fields.reverse.find? fun f => f.1 = packageName with
        | none => some []
        | some f =>
          let lineNumber := findLineNumber content packageName depType.jsName
          some [{ path := filePath, type := .manifest, dependencyType := depType,
                  version := f.2,
                  lineUrl := mkLineUrl repoUrl branch filePath lineNumber }]
      | .arr _ => some []
      | _ => none

/-- `ManifestParser.parseManifest(content, packageName, filePath, repoUrl,
branch)`.  `none` models an uncaught `TypeError` (the `try` only wraps
`JSON.parse`, whose failure is caught and turned into `[]`). -/
def parseManifest (content packageName filePath repoUrl branch : List Char) :
    Option (List DependencySource) :=
  match parseJson content with
  | none => some []
  | some (Json.null) => none
  | some parsed => do
      let a ← sectionRecords parsed content packageName filePath repoUrl branch .dependencies
      let b ← sectionRecords parsed content packageName filePath repoUrl branch .devDependencies
      let c ← sectionRecords parsed content packageName filePath repoUrl branch .peerDependencies
      let d ← sectionRecords parsed content packageName filePath repoUrl branch .optionalDependencies
      pure (a ++ b ++ c ++ d)

/-!  ## Lockfile stream extractors (`src/lockfile-parser.ts`)

Each extractor reads the response body chunk by chunk, appends the decoded
chunk to a carried buffer, splits the buffer on `'\n'` and keeps the final
(possibly incomplete) segment in the buffer (`buffer = lines.pop() || ''`).
The model takes the already-decoded chunks (`List (List Char)`); the byte
to text decoding is the platform `TextDecoder` and is not itself under
claim. -/

/-- The extractor-internal `LockfileMatch` record. -/
structure LockfileMatch where
  version : List Char
  lineNumber : Nat
deriving DecidableEq, Repr

/-- `buffer.split('\n')` followed by `buffer = lines.pop() || ''`:
the completed lines and the retained trailing segment. -/
def splitNL : List Char → List (List Char) × List Char
  | [] => ([], [])
  | c :: r =>
    let p := splitNL r
    if c = '\n' then ([] :: p.1, p.2)
    else
      match p.1 with
      | [] => ([], c :: p.2)
      | x :: xs => ((c :: x) :: xs, p.2)

/-- Leftmost-match search of an unanchored regex: try the attempt at every
position, earliest first (`attempt` embeds the regex matched at one fixed
position). -/
def firstMatch {α : Type} (attempt : List Char → Option α) : List Char → Option α
  | [] => attempt []
  | l@(_ :: r) =>
    match attempt l with
    | some v => some v
    | none => firstMatch attempt r

/-- `/"version":\s*"([^"]+)"/` matched at one position. -/
def npmVersionAttempt (l : List Char) : Option (List Char) :=
  if startsWith "\x22version\x22:".data l then
    let r := (l.drop 10).dropWhile jsWhitespace
    match r with
    | c :: r2 =>
      if c = dq then
        let v := r2.takeWhile (· ≠ dq)
        if v ≠ [] ∧ (r2.dropWhile (· ≠ dq)) ≠ [] then some v else none
      else none
    | [] => none
  else none

/-- `line.match(/"version":\s*"([^"]+)"/)`, group 1. -/
def npmVersionSearch (line : List Char) : Option (List Char) :=
  firstMatch npmVersionAttempt line

/-- The mutable locals of `findInNpmLock` (the npm extractor initialises
`lineNumber` to 1 and increments it before handling a line; its three
siblings initialise it to 0). -/
structure NpmState where
  lineNumber : Nat
  inPackageBlock : Bool
  bracketDepth : Int
deriving DecidableEq, Repr

/-- `for (const char of line) { if (char === '{') bracketDepth++; if (char
=== '}') bracketDepth-- }` as a net change. -/
def braceDelta (l : List Char) : Int :=
  l.foldl (fun d c => if c = lbrace then d + 1 else if c = rbrace then d - 1 else d) 0

/-- One iteration of the npm extractor's `for (const line of lines)` body. -/
def npmStep (packageName : List Char) (s : NpmState) (line : List Char) :
    NpmState × List LockfileMatch :=
  let ln := s.lineNumber + 1
  let isHeader := includesSub line (dq :: "node_modules/".data ++ packageName ++ [dq]) ||
                  includesSub line (dq :: packageName ++ [dq])
  let inB := if isHeader then true else s.inPackageBlock
  let depth0 := if isHeader then (0 : Int) else s.bracketDepth
  if inB then
    let depth1 := depth0 + braceDelta line
    let out := match npmVersionSearch line with
      | some v => [⟨v, ln⟩]
      | none => []
    let inB2 := if depth1 ≤ 0 ∧ line.contains rbrace then false else true
    (⟨ln, inB2, depth1⟩, out)
  else (⟨ln, inB, depth0⟩, [])

/-- `/^\s+version\s+"([^"]+)"/` (anchored), group 1. -/
def yarnVersionMatch (l : List Char) : Option (List Char) :=
  if l.takeWhile jsWhitespace = [] then none
  else
    let r := l.dropWhile jsWhitespace
    if startsWith "version".data r then
      let r2 := r.drop 7
      if r2.takeWhile jsWhitespace = [] then none
      else
        match r2.dropWhile jsWhitespace with
        | c :: r3 =>
          if c = dq then
            let v := r3.takeWhile (· ≠ dq)
            if v ≠ [] ∧ (r3.dropWhile (· ≠ dq)) ≠ [] then some v else none
          else none
        | [] => none
    else none

/-- The mutable locals of `findInYarnV1Lock`. -/
structure YarnState where
  lineNumber : Nat
  inPackageBlock : Bool
deriving DecidableEq, Repr

/-- One iteration of the yarn v1 extractor's loop body: header detection,
then (when in a block) the version match and the blank-line / column-0
exit check, in source order. -/
def yarnStep (packageName : List Char) (s : YarnState) (line : List Char) :
    YarnState × List LockfileMatch :=
  let ln := s.lineNumber + 1
  let inB0 := if startsWith (packageName ++ ['@']) line ||
                 includesSub line (dq :: packageName ++ ['@']) then true
              else s.inPackageBlock
  if inB0 then
    let out := match yarnVersionMatch line with
      | some v => [(⟨v, ln⟩ : LockfileMatch)]
      | none => []
    let inB1 := if (yarnVersionMatch line).isSome then false else inB0
    let inB2 := if jsTrim line = [] ∨
                   (¬ startsWith [' '] line ∧ ¬ startsWith ['\t'] line) then false
                else inB1
    (⟨ln, inB2⟩, out)
  else (⟨ln, inB0⟩, [])

/-- The pnpm path-style regex
`^\s+[\/']<pkg>[\/']([^:'"\s]+)` (anchored; the package name is inserted
literally — faithful for names without regex metacharacters, which is
every name the claims use), group 1. -/
def pnpmPathMatch (packageName l : List Char) : Option (List Char) :=
  if l.takeWhile jsWhitespace = [] then none
  else
    match l.dropWhile jsWhitespace with
    | c :: r =>
      if c = '/' ∨ c = sq then
        if startsWith packageName r then
          match r.drop packageName.length with
          | c2 :: r2 =>
            if c2 = '/' ∨ c2 = sq then
              let g := r2.takeWhile fun ch => ¬ (ch = ':' ∨ ch = sq ∨ ch = dq ∨ jsWhitespace ch)
              if g ≠ [] then some g else none
            else none
          | [] => none
        else none
      else none
    | [] => none

/-- `versionPart.match(/^(\d+\.\d+\.\d+[^\/]*)/)`, group 1. -/
def pnpmVersionOfPath (vp : List Char) : Option (List Char) :=
  let d1 := vp.takeWhile isDigitChar
  if d1 = [] then none
  else
    match vp.dropWhile isDigitChar with
    | '.' :: r2 =>
      let d2 := r2.takeWhile isDigitChar
      if d2 = [] then none
      else
        match r2.dropWhile isDigitChar with
        | '.' :: r3 =>
          let d3 := r3.takeWhile isDigitChar
          if d3 = [] then none
          else
            let tail := (r3.dropWhile isDigitChar).takeWhile (· ≠ '/')
            some (d1 ++ '.' :: d2 ++ '.' :: d3 ++ tail)
        | _ => none
    | _ => none

/-- `/version:\s*([^\s]+)/` matched at one position. -/
def pnpmSpecAttempt (l : List Char) : Option (List Char) :=
  if startsWith "version:".data l then
    let r := (l.drop 8).dropWhile jsWhitespace
    let v := r.takeWhile fun c => ¬ jsWhitespace c
    if v ≠ [] then some v else none
  else none

/-- One iteration of the pnpm extractor's loop body (its only carried
state is the line counter); both strategies can fire on the same line, in
source order. -/
def pnpmStep (packageName : List Char) (ln0 : Nat) (line : List Char) :
    Nat × List LockfileMatch :=
  let ln := ln0 + 1
  let out1 := match pnpmPathMatch packageName line with
    | some g =>
      let versionPart := match g with
        | '/' :: t => t
        | _ => g
      match pnpmVersionOfPath versionPart with
      | some v => [(⟨v, ln⟩ : LockfileMatch)]
      | none => []
    | none => []
  let out2 := if includesSub line packageName then
      match firstMatch pnpmSpecAttempt line with
      | some v => [(⟨v, ln⟩ : LockfileMatch)]
      | none => []
    else []
  (ln, out1 ++ out2)

/-- `/["']?([0-9]+\.[0-9]+\.[0-9]+[^"'\s]*)["']?/` matched at one
position, group 1. -/
def bunVersionAttempt (l : List Char) : Option (List Char) :=
  let l1 := match l with
    | c :: r => if c = dq ∨ c = sq then r else l
    | [] => l
  let d1 := l1.takeWhile isDigitChar
  if d1 = [] then none
  else
    match l1.dropWhile isDigitChar with
    | '.' :: r2 =>
      let d2 := r2.takeWhile isDigitChar
      if d2 = [] then none
      else
        match r2.dropWhile isDigitChar with
        | '.' :: r3 =>
          let d3 := r3.takeWhile isDigitChar
          if d3 = [] then none
          else
            let tail := (r3.dropWhile isDigitChar).takeWhile
              fun c => ¬ (c = dq ∨ c = sq ∨ jsWhitespace c)
            some (d1 ++ '.' :: d2 ++ '.' :: d3 ++ tail)
        | _ => none
    | _ => none

/-- One iteration of the bun extractor's loop body. -/
def bunStep (packageName : List Char) (ln0 : Nat) (line : List Char) :
    Nat × List LockfileMatch :=
  let ln := ln0 + 1
  if includesSub line packageName then
    match firstMatch bunVersionAttempt line with
    | some v => (ln, [⟨v, ln⟩])
    | none => (ln, [])
  else (ln, [])

/-- `for (const line of lines)` over a batch of completed lines. -/
def processLines {σ : Type} (step : σ → List Char → σ × List LockfileMatch) :
    σ → List (List Char) → σ × List LockfileMatch
  | s, [] => (s, [])
  | s, l :: ls =>
    let p := step s l
    let q := processLines step p.1 ls
    (q.1, p.2 ++ q.2)

/-- The `while (true) { await reader.read(); ... }` loop shared by the four
extractors: per chunk, append to the carried buffer, split off the
completed lines, process them, retain the trailing segment.  Returns the
final state, the final buffer and the yielded matches. -/
def runChunks {σ : Type} (step : σ → List Char → σ × List LockfileMatch) :
    σ → List Char → List (List Char) → σ × List Char × List LockfileMatch
  | s, buf, [] => (s, buf, [])
  | s, buf, chunk :: chunks =>
    let p := splitNL (buf ++ chunk)
    let q := processLines step s p.1
    let r := runChunks step q.1 p.2 chunks
    (r.1, r.2.1, q.2 ++ r.2.2)

/-- `findInNpmLock(response, packageName)`: the chunk loop, then the
`if (buffer && inPackageBlock)` check of the remaining buffer. -/
def findInNpmLock (chunks : List (List Char)) (packageName : List Char) : List LockfileMatch :=
  let r := runChunks (npmStep packageName) ⟨1, false, 0⟩ [] chunks
  r.2.2 ++
    (if r.2.1 ≠ [] ∧ r.1.inPackageBlock then
      match npmVersionSearch r.2.1 with
      | some v => [⟨v, r.1.lineNumber + 1⟩]
      | none => []
    else [])

/-- `findInYarnV1Lock(response, packageName)` (no post-loop buffer
handling). -/
def findInYarnV1Lock (chunks : List (List Char)) (packageName : List Char) : List LockfileMatch :=
  (runChunks (yarnStep packageName) ⟨0, false⟩ [] chunks).2.2

/-- `findInPnpmLock(response, packageName)` (no post-loop buffer
handling). -/
def findInPnpmLock (chunks : List (List Char)) (packageName : List Char) : List LockfileMatch :=
  (runChunks (pnpmStep packageName) 0 [] chunks).2.2

/-- `findInBunLock(response, packageName)` (no post-loop buffer
handling). -/
def findInBunLock (chunks : List (List Char)) (packageName : List Char) : List LockfileMatch :=
  (runChunks (bunStep packageName) 0 [] chunks).2.2

/-!  ## Resource discipline of the stream extractors

All four extractors share the control shape

  `if (!response.body) return; const reader = response.body.getReader();
   try { while (true) { await reader.read(); ...; yield ...; } ... }
   finally { reader.releaseLock(); }`

To verify the release-exactly-once property we embed that shape as a
program in a small async-generator language whose interpreter implements
the JavaScript generator protocol: a `yield` is a suspension point where
the consumer may abandon the sequence (`return()`), a `read` may reject,
and a `try/finally` runs its finalizer exactly once on every way out of
its body (normal completion, abandonment, error).  The extractors differ
only in how many matches each read's lines produce, which the program
takes as an oracle. -/

/-- Observable events of one extractor invocation. -/
inductive REvent where
  | acquire
  | readStep
  | yieldStep
  | release
deriving DecidableEq, Repr

/-- Programs of the generator language. -/
inductive RProg where
  | skip
  | emit (e : REvent)
  | seq (a b : RProg)
  | tryFin (body finalizer : RProg)

/-- The environment of one run: at which yield (0-based, counted across
the whole run) the consumer abandons the generator, if ever, and at which
read the stream errors, if ever. -/
structure REnv where
  stopAtYield : Option Nat
  failAtRead : Option Nat

/-- How a run ends: normally, abandoned by the consumer, or by an error. -/
inductive RStatus where
  | ok
  | stopped
  | failed
deriving DecidableEq, Repr

/-- Yields and reads performed so far. -/
structure RCounters where
  yields : Nat
  reads : Nat
deriving DecidableEq, Repr

/-- Interpreter.  `seq` stops early when its first component does not end
normally; `tryFin` always runs the finalizer and keeps the body's
abnormal status (the finalizer here never suspends or throws unless it
contains a yield or read itself). -/
def runProg : RProg → REnv → RCounters → RCounters × RStatus × List REvent
  | .skip, _, k => (k, .ok, [])
  | .emit .yieldStep, env, k =>
    (⟨k.yields + 1, k.reads⟩,
     if env.stopAtYield = some k.yields then .stopped else .ok,
     [.yieldStep])
  | .emit .readStep, env, k =>
    (⟨k.yields, k.reads + 1⟩,
     if env.failAtRead = some k.reads then .failed else .ok,
     [.readStep])
  | .emit e, _, k => (k, .ok, [e])
  | .seq a b, env, k =>
    let p := runProg a env k
    match p.2.1 with
    | .ok =>
      let q := runProg b env p.1
      (q.1, q.2.1, p.2.2 ++ q.2.2)
    | s => (p.1, s, p.2.2)
  | .tryFin a f, env, k =>
    let p := runProg a env k
    let q := runProg f env p.1
    (q.1, if q.2.1 = .ok then p.2.1 else q.2.1, p.2.2 ++ q.2.2)

/-- `n` consecutive yields (the matches one batch of lines produces). -/
def yieldsN : Nat → RProg
  | 0 => .skip
  | n + 1 => .seq (.emit .yieldStep) (yieldsN n)

/-- Sequence a list of programs. -/
def seqAll (ps : List RProg) : RProg :=
  ps.foldr .seq .skip

/-- The body of the `try`: the read loop (one `reader.read()` per chunk,
then the yields its completed lines produce), followed by the yields of
the trailing-buffer check (`trailing = 0` for the extractors that have
none). -/
def loopBody (perRead : List Nat) (trailing : Nat) : RProg :=
  .seq (seqAll (perRead.map fun n => .seq (.emit .readStep) (yieldsN n))) (yieldsN trailing)

/-- A lockfile stream extractor invocation: return early when the
response has no body, otherwise acquire the reader, run the loop inside
`try`, release in `finally`. -/
def extractorProg (hasBody : Bool) (perRead : List Nat) (trailing : Nat) : RProg :=
  if hasBody then
    .seq (.emit .acquire) (.tryFin (loopBody perRead trailing) (.emit .release))
  else .skip

/-- The events of one extractor invocation. -/
def extractorTrace (hasBody : Bool) (perRead : List Nat) (trailing : Nat) (env : REnv) :
    List REvent :=
  (runProg (extractorProg hasBody perRead trailing) env ⟨0, 0⟩).2.2

/-!  ## Spec-side definitions

Definitions in this block restate what the specification's sentences
describe, for comparison against the embedded code; they are not
translations of the source. -/

/-- The canonicalization that claim C3 describes: trim outer whitespace
first, then remove one surrounding pair of quotes only when the trimmed
string is enclosed in a matching pair of identical quote characters. -/
def claimedCanonical (s : List Char) : List Char :=
  let t := jsTrim s
  match t with
  | c :: r =>
    if (c = dq ∨ c = sq) ∧ r ≠ [] ∧ r.getLast? = some c then r.dropLast else t
  | [] => t

/-- Drop one leading quote character when the string starts with one. -/
def dropLeadQuote : List Char → List Char
  | c :: r => if c = dq ∨ c = sq then r else c :: r
  | [] => []

/-- Drop one trailing quote character when the string ends with one. -/
def dropTrailQuote (s : List Char) : List Char :=
  (dropLeadQuote s.reverse).reverse

/-- The canonicalization the code actually performs, phrased the way the
amended claim reads: strip one leading quote if present, then one
trailing quote if present (independently, no matching required), and trim
whitespace last. -/
def amendedCanonical (s : List Char) : List Char :=
  jsTrim (dropTrailQuote (dropLeadQuote s))

/-!  ## Lemmas about the collector  -/

theorem insortStr_perm (v : List Char) (l : List (List Char)) :
    (insortStr v l).Perm (v :: l) := by
  induction l with
  | nil => simp [insortStr]
  | cons x xs ih =>
    by_cases h : ltChars x v = true
    · simpa [insortStr, h] using ((ih.cons x).trans (List.Perm.swap v x xs))
    · simp [insortStr, h]

theorem sortStrs_perm (l : List (List Char)) : (sortStrs l).Perm l := by
  induction l with
  | nil => simp [sortStrs]
  | cons x xs ih =>
    exact ((insortStr_perm x (sortStrs xs)).trans (ih.cons x))

theorem mem_sortStrs {v : List Char} {l : List (List Char)} :
    v ∈ sortStrs l ↔ v ∈ l :=
  (sortStrs_perm l).mem_iff

theorem count_sortStrs (v : List Char) (l : List (List Char)) :
    (sortStrs l).count v = l.count v :=
  (sortStrs_perm l).countP_eq _

theorem get_addToKey_none {m : Collector} {key : List Char} (v : List Char)
    (h : Collector.get m key = none) :
    Collector.get (Collector.addToKey m key v) key = some [v] := by
  induction m with
  | nil => simp [Collector.addToKey, Collector.get]
  | cons kv rest ih =>
    obtain ⟨k, s⟩ := kv
    by_cases hk : k = key
    · subst hk; simp [Collector.get] at h
    · simp only [Collector.get, if_neg hk] at h
      simp [Collector.addToKey, Collector.get, hk, ih h]

theorem get_addToKey_some {m : Collector} {key : List Char} {set0 : List (List Char)}
    (v : List Char) (h : Collector.get m key = some set0) :
    Collector.get (Collector.addToKey m key v) key =
      some (if v ∈ set0 then set0 else set0 ++ [v]) := by
  induction m with
  | nil => simp [Collector.get] at h
  | cons kv rest ih =>
    obtain ⟨k, s'⟩ := kv
    by_cases hk : k = key
    · subst hk
      simp only [Collector.get, if_pos rfl, if_true, Option.some.injEq] at h
      subst h
      simp [Collector.addToKey, Collector.get]
    · simp only [Collector.get, if_neg hk] at h
      simp [Collector.addToKey, Collector.get, hk, ih h]

theorem get_addToKey_ne {m : Collector} {key k2 : List Char} (v : List Char)
    (h : k2 ≠ key) :
    Collector.get (Collector.addToKey m key v) k2 = Collector.get m k2 := by
  induction m with
  | nil => simp [Collector.addToKey, Collector.get, Ne.symm h]
  | cons kv rest ih =>
    obtain ⟨k, s⟩ := kv
    by_cases hk : k = key
    · subst hk
      simp [Collector.addToKey, Collector.get, Ne.symm h]
    · simp [Collector.addToKey, Collector.get, hk, ih]

theorem addToKey_of_mem {m : Collector} {key v : List Char} {s : List (List Char)}
    (h : Collector.get m key = some s) (hv : v ∈ s) :
    Collector.addToKey m key v = m := by
  induction m with
  | nil => simp [Collector.get] at h
  | cons kv rest ih =>
    obtain ⟨k, s'⟩ := kv
    by_cases hk : k = key
    · subst hk
      simp only [Collector.get, if_pos rfl, if_true, Option.some.injEq] at h
      subst h
      simp [Collector.addToKey, hv]
    · simp only [Collector.get, if_neg hk] at h
      simp [Collector.addToKey, hk, ih h]

theorem get_mem_of_some {m : Collector} {key : List Char} {s : List (List Char)}
    (h : Collector.get m key = some s) : ∃ k, (k, s) ∈ m := by
  induction m with
  | nil => simp [Collector.get] at h
  | cons kv rest ih =>
    obtain ⟨k, s'⟩ := kv
    by_cases hk : k = key
    · subst hk
      simp only [Collector.get, if_pos rfl, if_true, Option.some.injEq] at h
      exact ⟨k, by simp [h]⟩
    · simp only [Collector.get, if_neg hk] at h
      obtain ⟨k2, hk2⟩ := ih h
      exact ⟨k2, by simp [hk2]⟩

theorem add_of_valid {st : Collector} {key raw : List Char}
    (hv : isValidSemver (normalize raw) = true) :
    Collector.add st key raw = Collector.addToKey st key (normalize raw) := by
  simp [Collector.add, hv]

theorem add_of_invalid {st : Collector} {key raw : List Char}
    (hv : isValidSemver (normalize raw) = false) :
    Collector.add st key raw = st := by
  simp [Collector.add, hv]

theorem add_of_mem {st : Collector} {key raw : List Char}
    (h : normalize raw ∈ Collector.getVersions st key) :
    Collector.add st key raw = st := by
  cases hget : Collector.get st key with
  | none => simp [Collector.getVersions, hget] at h
  | some s =>
    have hmem : normalize raw ∈ s := by
      rw [Collector.getVersions, hget] at h
      exact mem_sortStrs.mp h
    cases hv : isValidSemver (normalize raw) with
    | false => exact add_of_invalid hv
    | true => rw [add_of_valid hv, addToKey_of_mem hget hmem]

theorem add_add (st : Collector) (key raw : List Char) :
    Collector.add (Collector.add st key raw) key raw = Collector.add st key raw := by
  cases hv : isValidSemver (normalize raw) with
  | false => rw [add_of_invalid hv, add_of_invalid hv]
  | true =>
    rw [add_of_valid hv, add_of_valid hv]
    cases hget : Collector.get st key with
    | none =>
      exact addToKey_of_mem (get_addToKey_none (normalize raw) hget) (by simp)
    | some s =>
      refine addToKey_of_mem (get_addToKey_some (normalize raw) hget) ?_
      by_cases hmem : normalize raw ∈ s
      · simp [hmem]
      · simp [hmem]

theorem count_eq_one_of_mem_nodup {v : List Char} {l : List (List Char)}
    (hn : l.Nodup) (hm : v ∈ l) : l.count v = 1 := by
  induction l with
  | nil => cases hm
  | cons x xs ih =>
    rcases List.mem_cons.mp hm with h | h
    · subst h
      have hx : v ∉ xs := (List.nodup_cons.mp hn).1
      rw [List.count_cons_self, List.count_eq_zero.mpr hx]
    · have hne : v ≠ x := by
        rintro rfl
        exact (List.nodup_cons.mp hn).1 h
      rw [List.count_cons_of_ne hne, ih (List.nodup_cons.mp hn).2 h]

/-!  ## The claims about the version collector  -/

/-- C2: for every key and raw string whose normalized (canonical) form
passes the semver grammar and matches no exclusion pattern,
`VersionCollector.add` stores exactly that canonical form (it appears in
`getVersions`, and nothing other than it is ever added); for every raw
string whose normalized form matches an exclusion pattern, `add` records
nothing at all, regardless of the grammar. -/
theorem add_stores_canonical_form (st : Collector) (key raw : List Char) :
    (matchesExcludedPattern (normalize raw) = true → Collector.add st key raw = st) ∧
    (matchesExcludedPattern (normalize raw) = false →
      semverRegexTest (normalize raw) = true →
      normalize raw ∈ Collector.getVersions (Collector.add st key raw) key ∧
      ∀ v ∈ Collector.getVersions (Collector.add st key raw) key,
        v ∈ Collector.getVersions st key ∨ v = normalize raw) := by
  constructor
  · intro hex
    exact add_of_invalid (by simp [isValidSemver, hex])
  · intro hex hsem
    have hv : isValidSemver (normalize raw) = true := by
      simp [isValidSemver, hex, hsem]
    rw [add_of_valid hv]
    cases hget : Collector.get st key with
    | none =>
      simp only [Collector.getVersions, get_addToKey_none (normalize raw) hget]
      refine ⟨mem_sortStrs.mpr (by simp), ?_⟩
      intro v hvmem
      right
      simpa using mem_sortStrs.mp hvmem
    | some s =>
      simp only [Collector.getVersions, get_addToKey_some (normalize raw) hget, hget]
      by_cases hmem : normalize raw ∈ s
      · rw [if_pos hmem]
        exact ⟨mem_sortStrs.mpr hmem, fun v hvmem => Or.inl hvmem⟩
      · rw [if_neg hmem]
        refine ⟨mem_sortStrs.mpr (by simp), ?_⟩
        intro v hvmem
        rcases List.mem_append.mp (mem_sortStrs.mp hvmem) with h1 | h1
        · exact Or.inl (mem_sortStrs.mpr h1)
        · right
          simpa using h1

/-- C2 witness: concrete instances of both directions — an excluded raw
string (`workspace:*`) records nothing, an accepted one (`1.2.3`) is
stored in canonical form. -/
theorem add_stores_canonical_form_witness :
    Collector.add Collector.empty "k".data "workspace:*".data = Collector.empty ∧
    normalize "1.2.3".data ∈
      Collector.getVersions (Collector.add Collector.empty "k".data "1.2.3".data) "k".data :=
  ⟨(add_stores_canonical_form Collector.empty "k".data "workspace:*".data).1 (by decide),
   ((add_stores_canonical_form Collector.empty "k".data "1.2.3".data).2
      (by decide) (by decide)).1⟩

theorem stripTrail_eq (l : List Char) :
    (if l ≠ [] ∧ (l.getLast? = some dq ∨ l.getLast? = some sq) then l.dropLast else l)
      = dropTrailQuote l := by
  induction l using List.reverseRecOn with
  | nil => simp [dropTrailQuote, dropLeadQuote]
  | append_singleton xs x _ =>
    by_cases hx : x = dq ∨ x = sq
    · simp [dropTrailQuote, dropLeadQuote, hx, List.getLast?_concat, List.dropLast_concat]
    · simp [dropTrailQuote, dropLeadQuote, hx, List.getLast?_concat]

theorem stripQuotesJS_eq (s : List Char) :
    stripQuotesJS s = dropTrailQuote (dropLeadQuote s) := by
  rw [← stripTrail_eq]
  cases s with
  | nil => simp [stripQuotesJS, dropLeadQuote]
  | cons c r =>
    by_cases hc : c = dq ∨ c = sq <;> simp [stripQuotesJS, dropLeadQuote, hc]

/-- C3 counterexample: the mismatched pair of quotes in `'1.2.3"` is
stripped by the code (and `1.2.3` is stored), while the claim's
canonicalization — trim, then unquote only a matching surrounding pair —
leaves the string unchanged. -/
theorem normalize_matching_pair_counterexample :
    normalize ((sq :: "1.2.3".data) ++ [dq]) ≠
      claimedCanonical ((sq :: "1.2.3".data) ++ [dq]) ∧
    claimedCanonical ((sq :: "1.2.3".data) ++ [dq]) = (sq :: "1.2.3".data) ++ [dq] ∧
    Collector.getVersions
        (Collector.add Collector.empty "k".data ((sq :: "1.2.3".data) ++ [dq]))
        "k".data
      = ["1.2.3".data] := by
  decide

/-- C3 (amended): the normalization step removes one leading quote
character if the string starts with one, then one trailing quote
character if the result ends with one — independently, with no matching
requirement — and only then trims whitespace; hence a quoted version
preceded by whitespace keeps its quotes, and lone or mismatched quotes
are stripped. -/
theorem normalize_strips_quotes_then_trims (s : List Char) :
    normalize s = amendedCanonical s := by
  rw [normalize, amendedCanonical, stripQuotesJS_eq]

/-- C6: adding the same `(key, raw)` pair `n ≥ 1` times leaves the
collector exactly as adding it once; for an accepted raw string the
canonical form afterwards occurs in `getVersions key` exactly once; and
adding an already-present pair is a no-op.  (`hwf` says every stored
member set is duplicate-free, which holds for every collector built
through the API.) -/
theorem add_idempotent (st : Collector) (key raw : List Char) (n : Nat)
    (hn : 1 ≤ n) (hwf : ∀ kv ∈ st, List.Nodup kv.2) :
    (fun m => Collector.add m key raw)^[n] st = Collector.add st key raw ∧
    (isValidSemver (normalize raw) = true →
      (Collector.getVersions (Collector.add st key raw) key).count (normalize raw) = 1) ∧
    (normalize raw ∈ Collector.getVersions st key → Collector.add st key raw = st) := by
  refine ⟨?_, ?_, fun h => add_of_mem h⟩
  · have hiter : ∀ k, (fun m => Collector.add m key raw)^[k + 1] st =
        Collector.add st key raw := by
      intro k
      induction k with
      | zero => simp
      | succ j ihj =>
        rw [Function.iterate_succ_apply', ihj, add_add]
    obtain ⟨k, rfl⟩ : ∃ k, n = k + 1 := ⟨n - 1, by omega⟩
    exact hiter k
  · intro hv
    rw [add_of_valid hv]
    cases hget : Collector.get st key with
    | none =>
      simp only [Collector.getVersions, get_addToKey_none (normalize raw) hget]
      rw [count_sortStrs]
      simp
    | some s =>
      have hnodup : s.Nodup := by
        obtain ⟨k, hk⟩ := get_mem_of_some hget
        exact hwf (k, s) hk
      simp only [Collector.getVersions, get_addToKey_some (normalize raw) hget]
      by_cases hmem : normalize raw ∈ s
      · rw [if_pos hmem, count_sortStrs]
        exact count_eq_one_of_mem_nodup hnodup hmem
      · rw [if_neg hmem, count_sortStrs]
        refine count_eq_one_of_mem_nodup ?_ (by simp)
        simp [List.nodup_append, hnodup, hmem]

/-- C6 witness: the theorem applied at the empty collector, `n = 3` and
the accepted raw string `1.2.3`. -/
theorem add_idempotent_witness :
    ((fun m => Collector.add m "k".data "1.2.3".data)^[3] Collector.empty =
        Collector.add Collector.empty "k".data "1.2.3".data) ∧
    (Collector.getVersions (Collector.add Collector.empty "k".data "1.2.3".data)
        "k".data).count (normalize "1.2.3".data) = 1 :=
  ⟨(add_idempotent Collector.empty "k".data "1.2.3".data 3 (by decide)
      (by intro kv h; simp [Collector.empty] at h)).1,
   (add_idempotent Collector.empty "k".data "1.2.3".data 3 (by decide)
      (by intro kv h; simp [Collector.empty] at h)).2.1 (by decide)⟩

/-- C10: the frame property of `add` — versions stored under any other
key are untouched, and the target key's versions are either unchanged or
extended by exactly the single element `normalize version`; no element is
ever removed (and the embedded `add` is a total function: it cannot
throw). -/
theorem add_frame_effect (st : Collector) (key version k2 : List Char) :
    (k2 ≠ key →
      Collector.getVersions (Collector.add st key version) k2 =
        Collector.getVersions st k2) ∧
    (Collector.getVersions (Collector.add st key version) key =
        Collector.getVersions st key ∨
      (normalize version ∉ Collector.getVersions st key ∧
        ∀ v, v ∈ Collector.getVersions (Collector.add st key version) key ↔
          (v ∈ Collector.getVersions st key ∨ v = normalize version))) ∧
    (∀ v ∈ Collector.getVersions st key,
      v ∈ Collector.getVersions (Collector.add st key version) key) := by
  cases hv : isValidSemver (normalize version) with
  | false =>
    rw [add_of_invalid hv]
    exact ⟨fun _ => rfl, Or.inl rfl, fun v h => h⟩
  | true =>
    rw [add_of_valid hv]
    refine ⟨?_, ?_, ?_⟩
    · intro hne
      simp only [Collector.getVersions, get_addToKey_ne (normalize version) hne]
    · cases hget : Collector.get st key with
      | none =>
        right
        constructor
        · simp [Collector.getVersions, hget]
        · intro v
          simp only [Collector.getVersions, hget, get_addToKey_none (normalize version) hget]
          constructor
          · intro h
            right
            simpa using mem_sortStrs.mp h
          · rintro (h | h)
            · exact absurd h (List.not_mem_nil v)
            · subst h
              exact mem_sortStrs.mpr (by simp)
      | some s =>
        by_cases hmem : normalize version ∈ s
        · left
          rw [addToKey_of_mem hget hmem]
        · right
          constructor
          · simp only [Collector.getVersions, hget]
            exact fun h => hmem (mem_sortStrs.mp h)
          · intro v
            simp only [Collector.getVersions, hget,
              get_addToKey_some (normalize version) hget, if_neg hmem]
            constructor
            · intro h
              rcases List.mem_append.mp (mem_sortStrs.mp h) with h1 | h1
              · exact Or.inl (mem_sortStrs.mpr h1)
              · right
                simpa using h1
            · rintro (h | h)
              · exact mem_sortStrs.mpr (List.mem_append.mpr (Or.inl (mem_sortStrs.mp h)))
              · subst h
                exact mem_sortStrs.mpr (by simp)
    · intro v hvm
      cases hget : Collector.get st key with
      | none =>
        rw [Collector.getVersions, hget] at hvm
        exact absurd hvm (List.not_mem_nil v)
      | some s =>
        rw [Collector.getVersions, hget] at hvm
        by_cases hmem : normalize version ∈ s
        · rw [addToKey_of_mem hget hmem, Collector.getVersions, hget]
          exact hvm
        · simp only [Collector.getVersions, get_addToKey_some (normalize version) hget,
            if_neg hmem]
          exact mem_sortStrs.mpr (List.mem_append.mpr (Or.inl (mem_sortStrs.mp hvm)))

/-- C10 witness: the theorem applied at a concrete state and distinct
keys. -/
theorem add_frame_effect_witness :
    Collector.getVersions (Collector.add Collector.empty "a".data "1.0.0".data) "b".data =
      Collector.getVersions Collector.empty "b".data :=
  (add_frame_effect Collector.empty "a".data "1.0.0".data "b".data).1 (by decide)

/-!  ## The claims about the manifest parser  -/

/-- C4: content that does not parse as JSON yields an empty record
sequence — not an error — for every package name, file path, repository
URL and branch (the embedded `parseManifest` returns `some []`, and
`none`, its only error outcome, is unreachable on a failed parse). -/
theorem parseManifest_invalid_json (content packageName filePath repoUrl branch : List Char)
    (h : parseJson content = none) :
    parseManifest content packageName filePath repoUrl branch = some [] := by
  unfold parseManifest
  rw [h]

/-- C4 witness: the spec's own example `invalid json {` is unparseable
and yields zero records. -/
theorem parseManifest_invalid_json_witness :
    parseJson "invalid json \x7b".data = none ∧
    parseManifest "invalid json \x7b".data "react".data "package.json".data
      "https://github.com/test/repo".data "main".data = some [] :=
  ⟨by rfl,
   parseManifest_invalid_json "invalid json \x7b".data "react".data "package.json".data
     "https://github.com/test/repo".data "main".data (by rfl)⟩

theorem sectionRecords_types
    (parsed : Json) (content packageName filePath repoUrl branch : List Char)
    (dt : DependencyType) (l : List DependencySource)
    (h : sectionRecords parsed content packageName filePath repoUrl branch dt = some l) :
    l.map DependencySource.dependencyType = [] ∨
      l.map DependencySource.dependencyType = [dt] := by
  unfold sectionRecords at h
  split at h
  · cases h
    exact Or.inl rfl
  · split at h
    · cases h
      exact Or.inl rfl
    · split at h
      · split at h
        · cases h
          exact Or.inl rfl
        · cases h
          exact Or.inr rfl
      · cases h
        exact Or.inl rfl
      · cases h

/-- The example manifest of spec §8. -/
def specManifestText : List Char :=
  "\x7b\x22dependencies\x22:\x7b\x22react\x22:\x22^18.0.0\x22\x7d, \x22devDependencies\x22:\x7b\x22typescript\x22:\x22~5.0.0\x22\x7d\x7d".data

/-- C5: on the spec's example manifest, extraction for `react` yields
exactly one record with dependency type `dependencies` and version
`^18.0.0`, for `typescript` exactly one `devDependencies` record with
version `~5.0.0`, and for `vue` no records; in general the four sections
are inspected in the fixed order dependencies, devDependencies,
peerDependencies, optionalDependencies, each contributing at most one
record. -/
theorem parseManifest_fixed_sections :
    parseManifest specManifestText "react".data "package.json".data "u".data "main".data =
      some [{ path := "package.json".data, type := .manifest,
              dependencyType := .dependencies, version := .str "^18.0.0".data,
              lineUrl := "u/blob/main/package.json#L1".data }] ∧
    parseManifest specManifestText "typescript".data "package.json".data "u".data "main".data =
      some [{ path := "package.json".data, type := .manifest,
              dependencyType := .devDependencies, version := .str "~5.0.0".data,
              lineUrl := "u/blob/main/package.json#L1".data }] ∧
    parseManifest specManifestText "vue".data "package.json".data "u".data "main".data =
      some [] ∧
    ∀ content packageName filePath repoUrl branch l,
      parseManifest content packageName filePath repoUrl branch = some l →
      List.Sublist (l.map DependencySource.dependencyType)
        [DependencyType.dependencies, DependencyType.devDependencies,
         DependencyType.peerDependencies, DependencyType.optionalDependencies] := by
  refine ⟨by rfl, by rfl, by rfl, ?_⟩
  intro content packageName filePath repoUrl branch l h
  unfold parseManifest at h
  split at h
  · cases h
    simp
  · cases h
  · rename_i parsed _
    simp only [bind, Option.bind_eq_some] at h
    obtain ⟨a, ha, b, hb, c, hc, d, hd, habcd⟩ := h
    have habcd2 : a ++ b ++ c ++ d = l := by
      simpa using habcd
    subst habcd2
    have hsub : ∀ (x : List DependencySource) (dt : DependencyType),
        x.map DependencySource.dependencyType = [] ∨
          x.map DependencySource.dependencyType = [dt] →
        List.Sublist (x.map DependencySource.dependencyType) [dt] := by
      rintro x dt (hx | hx) <;> rw [hx]
      exact List.nil_sublist _
    have h1 := hsub a _ (sectionRecords_types _ _ _ _ _ _ _ _ ha)
    have h2 := hsub b _ (sectionRecords_types _ _ _ _ _ _ _ _ hb)
    have h3 := hsub c _ (sectionRecords_types _ _ _ _ _ _ _ _ hc)
    have h4 := hsub d _ (sectionRecords_types _ _ _ _ _ _ _ _ hd)
    have : (a ++ b ++ c ++ d).map DependencySource.dependencyType =
        a.map DependencySource.dependencyType ++ b.map DependencySource.dependencyType ++
        c.map DependencySource.dependencyType ++ d.map DependencySource.dependencyType := by
      simp
    rw [this]
    exact ((h1.append h2).append h3).append h4

/-- C5 witness: the general fixed-order conclusion applied at the example
manifest. -/
theorem parseManifest_fixed_sections_witness :
    ([{ path := "package.json".data, type := .manifest,
        dependencyType := .dependencies, version := .str "^18.0.0".data,
        lineUrl := "u/blob/main/package.json#L1".data }] :
      List DependencySource) |> List.map DependencySource.dependencyType |>
      (List.Sublist ·
        [DependencyType.dependencies, DependencyType.devDependencies,
         DependencyType.peerDependencies, DependencyType.optionalDependencies]) :=
  parseManifest_fixed_sections.2.2.2 specManifestText "react".data "package.json".data
    "u".data "main".data _ (by rfl)

/-!  ## The claims about the lockfile extractors  -/

/-- C1: evaluating the yarn v1 extractor at the claim's own example — the
header `lodash@^4.17.0:` followed by the indented `version "4.17.21"`
line — yields no match at all: the header line sets `inPackageBlock` and
the same iteration's exit check (`!line.startsWith(' ')`) immediately
clears it, so the version line is scanned outside the block.  The second
conjunct shows the version line by itself does satisfy the extractor's
version regex, isolating the block-state slip. -/
theorem findInYarnV1Lock_spec_block_eval :
    findInYarnV1Lock ["lodash@^4.17.0:\n  version \x224.17.21\x22\n".data] "lodash".data = [] ∧
    yarnVersionMatch "  version \x224.17.21\x22".data = some "4.17.21".data :=
  ⟨rfl, rfl⟩

/-- C7: the npm extractor initialises `lineNumber` to 1 and increments it
before handling a line (its three siblings initialise it to 0), so the
version string found on the second line of this stream is reported with
`lineNumber = 3`. -/
theorem findInNpmLock_lineNumber_eval :
    findInNpmLock
        ["\x22node_modules/lodash\x22: \x7b\n\x22version\x22: \x224.17.21\x22\n\x7d\n".data]
        "lodash".data = [⟨"4.17.21".data, 3⟩] ∧
    (splitAllNL
        "\x22node_modules/lodash\x22: \x7b\n\x22version\x22: \x224.17.21\x22\n\x7d\n".data).get? 1 =
      some "\x22version\x22: \x224.17.21\x22".data :=
  ⟨rfl, rfl⟩

theorem splitNL_no_newline {l : List Char} (h : '\n' ∉ l) : splitNL l = ([], l) := by
  induction l with
  | nil => rfl
  | cons c r ih =>
    have hc : c ≠ '\n' := fun hc => h (hc ▸ List.mem_cons_self c r)
    have hr : '\n' ∉ r := fun hm => h (List.mem_cons_of_mem c hm)
    simp [splitNL, ih hr, hc]

theorem splitNL_snd_no_newline (l : List Char) : '\n' ∉ (splitNL l).2 := by
  induction l with
  | nil => simp [splitNL]
  | cons c r ih =>
    by_cases hc : c = '\n'
    · simp [splitNL, hc, ih]
    · cases hp : (splitNL r).1 with
      | nil =>
        simp only [splitNL, hp, if_neg hc]
        intro hm
        rcases List.mem_cons.mp hm with h1 | h1
        · exact hc h1.symm
        · exact ih h1
      | cons x xs =>
        simp [splitNL, hc, hp, ih]

theorem splitNL_append_nil {b : List Char} (hb : (splitNL b).1 = []) (a : List Char) :
    splitNL (a ++ b) = ((splitNL a).1, (splitNL a).2 ++ (splitNL b).2) := by
  induction a with
  | nil =>
    simp only [List.nil_append, splitNL]
    exact Prod.ext hb rfl
  | cons c a' ih =>
    by_cases hc : c = '\n'
    · simp [splitNL, hc, ih]
    · cases hp : (splitNL a').1 with
      | nil => simp [splitNL, hc, ih, hp]
      | cons x xs => simp [splitNL, hc, ih, hp]

theorem splitNL_append_cons {b x : List Char} {xs : List (List Char)}
    (hb : (splitNL b).1 = x :: xs) (a : List Char) :
    splitNL (a ++ b) =
      ((splitNL a).1 ++ ((splitNL a).2 ++ x) :: xs, (splitNL b).2) := by
  induction a with
  | nil =>
    simp only [List.nil_append, splitNL]
    exact Prod.ext (by simp [hb]) rfl
  | cons c a' ih =>
    by_cases hc : c = '\n'
    · simp [splitNL, hc, ih]
    · cases hp : (splitNL a').1 with
      | nil => simp [splitNL, hc, ih, hp]
      | cons y ys => simp [splitNL, hc, ih, hp]

theorem splitNL_assoc (a b : List Char) :
    splitNL (a ++ b) =
      ((splitNL a).1 ++ (splitNL ((splitNL a).2 ++ b)).1,
       (splitNL ((splitNL a).2 ++ b)).2) := by
  have ha2 : splitNL (splitNL a).2 = ([], (splitNL a).2) :=
    splitNL_no_newline (splitNL_snd_no_newline a)
  cases hb : (splitNL b).1 with
  | nil =>
    rw [splitNL_append_nil hb a, splitNL_append_nil hb (splitNL a).2, ha2]
    simp
  | cons x xs =>
    rw [splitNL_append_cons hb a, splitNL_append_cons hb (splitNL a).2, ha2]
    simp

theorem processLines_append {σ : Type} (step : σ → List Char → σ × List LockfileMatch)
    (s : σ) (l1 l2 : List (List Char)) :
    processLines step s (l1 ++ l2) =
      ((processLines step (processLines step s l1).1 l2).1,
       (processLines step s l1).2 ++ (processLines step (processLines step s l1).1 l2).2) := by
  induction l1 generalizing s with
  | nil => simp [processLines]
  | cons x xs ih => simp [processLines, ih]

theorem runChunks_eq_processLines {σ : Type} (step : σ → List Char → σ × List LockfileMatch)
    (chunks : List (List Char)) :
    ∀ (s : σ) (buf : List Char), '\n' ∉ buf →
      runChunks step s buf chunks =
        ((processLines step s (splitNL (buf ++ chunks.flatten)).1).1,
         (splitNL (buf ++ chunks.flatten)).2,
         (processLines step s (splitNL (buf ++ chunks.flatten)).1).2) := by
  induction chunks with
  | nil =>
    intro s buf hbuf
    simp [runChunks, splitNL_no_newline hbuf, processLines]
  | cons ch chs ih =>
    intro s buf hbuf
    have h1 : buf ++ (ch :: chs).flatten = (buf ++ ch) ++ chs.flatten := by
      simp
    simp only [runChunks]
    rw [ih _ _ (splitNL_snd_no_newline _)]
    rw [h1, splitNL_assoc (buf ++ ch) chs.flatten, processLines_append]

/-- C8 counterexample: the bun extractor's yield set differs with and
without a terminating newline — a version on the final unterminated line
is dropped. -/
theorem trailing_newline_counterexample :
    findInBunLock ["lodash 1.2.3".data] "lodash".data = [] ∧
    findInBunLock ["lodash 1.2.3\n".data] "lodash".data = [⟨"1.2.3".data, 1⟩] :=
  ⟨rfl, rfl⟩

/-- C8 (amended): every extractor is insensitive to chunk boundaries and
consumes exactly the newline-terminated (complete) lines of the decoded
stream text: the yarn v1, pnpm and bun extractors drop a final
unterminated line entirely, and the npm extractor inspects the trailing
fragment only for a version string when its state is still inside a
package block.  No extractor fails on a trailing partial line, but only
for streams ending in a newline does the yield set match the fully
line-terminated reading. -/
theorem extractors_consume_complete_lines (chunks : List (List Char)) (packageName : List Char) :
    findInYarnV1Lock chunks packageName =
      (processLines (yarnStep packageName) ⟨0, false⟩ (splitNL chunks.flatten).1).2 ∧
    findInPnpmLock chunks packageName =
      (processLines (pnpmStep packageName) 0 (splitNL chunks.flatten).1).2 ∧
    findInBunLock chunks packageName =
      (processLines (bunStep packageName) 0 (splitNL chunks.flatten).1).2 ∧
    findInNpmLock chunks packageName =
      (processLines (npmStep packageName) ⟨1, false, 0⟩ (splitNL chunks.flatten).1).2 ++
        (if (splitNL chunks.flatten).2 ≠ [] ∧
            (processLines (npmStep packageName) ⟨1, false, 0⟩
              (splitNL chunks.flatten).1).1.inPackageBlock then
          match npmVersionSearch (splitNL chunks.flatten).2 with
          | some v =>
            [⟨v, (processLines (npmStep packageName) ⟨1, false, 0⟩
                (splitNL chunks.flatten).1).1.lineNumber + 1⟩]
          | none => []
        else []) := by
  refine ⟨?_, ?_, ?_, ?_⟩
  · rw [findInYarnV1Lock, runChunks_eq_processLines _ chunks _ [] (by simp)]
    simp
  · rw [findInPnpmLock, runChunks_eq_processLines _ chunks _ [] (by simp)]
    simp
  · rw [findInBunLock, runChunks_eq_processLines _ chunks _ [] (by simp)]
    simp
  · rw [findInNpmLock, runChunks_eq_processLines _ chunks _ [] (by simp)]
    simp

/-!  ## The claim about resource release  -/

/-- All events a program can possibly emit. -/
def progEmits : RProg → List REvent
  | .skip => []
  | .emit e => [e]
  | .seq a b => progEmits a ++ progEmits b
  | .tryFin a f => progEmits a ++ progEmits f

theorem runProg_events_mem (p : RProg) (env : REnv) (k : RCounters) :
    ∀ e ∈ (runProg p env k).2.2, e ∈ progEmits p := by
  induction p generalizing k with
  | skip => intro e he; cases he
  | emit ev =>
    intro e he
    cases ev <;> simp only [runProg] at he <;> simp [progEmits, List.mem_singleton.mp he]
  | seq a b iha ihb =>
    intro e he
    simp only [runProg] at he
    rcases hst : (runProg a env k).2.1 with _ | _ | _ <;> rw [hst] at he
    · rcases List.mem_append.mp he with h1 | h1
      · exact List.mem_append.mpr (Or.inl (iha k e h1))
      · exact List.mem_append.mpr (Or.inr (ihb _ e h1))
    · exact List.mem_append.mpr (Or.inl (iha k e he))
    · exact List.mem_append.mpr (Or.inl (iha k e he))
  | tryFin a f iha ihf =>
    intro e he
    simp only [runProg] at he
    rcases List.mem_append.mp he with h1 | h1
    · exact List.mem_append.mpr (Or.inl (iha k e h1))
    · exact List.mem_append.mpr (Or.inr (ihf _ e h1))

theorem progEmits_yieldsN (n : Nat) :
    ∀ e ∈ progEmits (yieldsN n), e = REvent.yieldStep := by
  induction n with
  | zero => intro e he; cases he
  | succ m ih =>
    intro e he
    rcases List.mem_append.mp he with h1 | h1
    · simpa [progEmits] using h1
    · exact ih e h1

theorem progEmits_loopBody (perRead : List Nat) (trailing : Nat) :
    ∀ e ∈ progEmits (loopBody perRead trailing),
      e = REvent.readStep ∨ e = REvent.yieldStep := by
  intro e he
  rcases List.mem_append.mp he with h1 | h1
  · clear he
    induction perRead with
    | nil => cases h1
    | cons n ns ih =>
      rcases List.mem_append.mp h1 with h2 | h2
      · rcases List.mem_append.mp h2 with h3 | h3
        · exact Or.inl (by simpa [progEmits] using h3)
        · exact Or.inr (progEmits_yieldsN n e h3)
      · exact ih h2
  · exact Or.inr (progEmits_yieldsN trailing e h1)

/-- C9: for every stream length, every pattern of matches, every consumer
abandonment point and every read-error point, the extractor's trace
acquires the reader exactly once and releases it exactly once; when the
response has no body, the reader is never acquired and never released.
(The `try/finally` protocol of the host's async generators is part of the
interpreter; the theorem verifies that the extractors acquire before the
`try`, release only in the `finally`, and yield only inside the `try`.) -/
theorem extractor_releases_reader_once (hasBody : Bool) (perRead : List Nat)
    (trailing : Nat) (env : REnv) :
    (extractorTrace hasBody perRead trailing env).count REvent.release =
      (if hasBody then 1 else 0) ∧
    (extractorTrace hasBody perRead trailing env).count REvent.acquire =
      (if hasBody then 1 else 0) := by
  cases hasBody with
  | false => simp [extractorTrace, extractorProg, runProg]
  | true =>
    have hbody : ∀ e ∈ (runProg (loopBody perRead trailing) env ⟨0, 0⟩).2.2,
        e = REvent.readStep ∨ e = REvent.yieldStep := fun e he =>
      progEmits_loopBody perRead trailing e (runProg_events_mem _ env _ e he)
    have htrace : extractorTrace true perRead trailing env =
        REvent.acquire ::
          ((runProg (loopBody perRead trailing) env ⟨0, 0⟩).2.2 ++ [REvent.release]) := by
      simp [extractorTrace, extractorProg, runProg]
    rw [htrace]
    have hrel : (runProg (loopBody perRead trailing) env ⟨0, 0⟩).2.2.count REvent.release = 0 :=
      List.count_eq_zero.mpr fun hm => by rcases hbody _ hm with h | h <;> cases h
    have hacq : (runProg (loopBody perRead trailing) env ⟨0, 0⟩).2.2.count REvent.acquire = 0 :=
      List.count_eq_zero.mpr fun hm => by rcases hbody _ hm with h | h <;> cases h
    constructor
    · simp [List.count_cons, List.count_append, hrel]
    · simp [List.count_cons, List.count_append, hacq]

end VersionCrawler
